import Mathlib

/-!
Verification development for the OpenSSH private-key codec
(`ssh-key/src/private.rs`): a shallow embedding of the private-key
container, the `KeypairData` sum type, padding discipline, and the
encrypt/decrypt glue, together with proofs of the specified properties.

Collaborators that live outside `private.rs` (the byte codec, algorithm
tags, cipher/KDF descriptors, per-algorithm keypair bodies and the
public-key side) are modelled from the specification, as marked on each
definition.
-/

namespace SshKey

/-- Wire bytes, each element one octet value. -/
abbrev Bytes := List Nat

/-- Error kinds of the library (spec §7). -/
inductive Error where
  | PemLabel
  | FormatEncoding
  | Length
  | Algorithm
  | PublicKey
  | Crypto
  | Encrypted
  | Decrypted
  | Utf8
  deriving DecidableEq, Repr

deriving instance DecidableEq for Except

/-! ## Byte codec

Modelled from the spec: §4.1 "Byte codec" (the `decoder`/`encoder`
modules are not under `src/`). A decoder is the list of remaining bytes;
each primitive returns the decoded value and the rest of the stream. -/

/-- Modelled from the spec: encode a `u32` as 4 big-endian bytes. -/
def encodeU32 (n : Nat) : Bytes :=
  [n / 16777216 % 256, n / 65536 % 256, n / 256 % 256, n % 256]

/-- Modelled from the spec: decode a big-endian `u32`; reading past the
end of the stream fails with `Length`. -/
def decodeU32 : Bytes → Except Error (Nat × Bytes)
  | a :: b :: c :: d :: rest => .ok (((a * 256 + b) * 256 + c) * 256 + d, rest)
  | _ => .error .Length

/-- Modelled from the spec: copy `n` opaque bytes (`decode_raw`). -/
def decodeRaw (n : Nat) (bs : Bytes) : Except Error (Bytes × Bytes) :=
  if n ≤ bs.length then .ok (bs.take n, bs.drop n) else .error .Length

/-- Modelled from the spec: an SSH string, `u32` length followed by that
many bytes. -/
def decodeStr (bs : Bytes) : Except Error (Bytes × Bytes) := do
  let (n, r) ← decodeU32 bs
  decodeRaw n r

/-- Modelled from the spec: encode an SSH string. -/
def encodeStr (s : Bytes) : Bytes := encodeU32 s.length ++ s

/-- Modelled from the spec: `decode_length_prefixed(f)` reads a `u32` N,
runs `f` over a sub-decoder limited to exactly N bytes, and fails unless
`f` consumes all N. -/
def decodeLengthPrefixed {α : Type} (f : Bytes → Except Error (α × Bytes))
    (bs : Bytes) : Except Error (α × Bytes) := do
  let (n, r) ← decodeU32 bs
  let (chunk, rest) ← decodeRaw n r
  let (a, leftover) ← f chunk
  if leftover = [] then pure (a, rest) else .error .Length

/-! ### Codec round-trip lemmas -/

theorem encodeU32_length (n : Nat) : (encodeU32 n).length = 4 := rfl

theorem decodeU32_encodeU32 (n : Nat) (rest : Bytes) (h : n < 4294967296) :
    decodeU32 (encodeU32 n ++ rest) = .ok (n, rest) := by
  simp only [encodeU32, List.cons_append, List.nil_append, decodeU32]
  congr 2
  omega

theorem decodeRaw_append (s rest : Bytes) :
    decodeRaw s.length (s ++ rest) = .ok (s, rest) := by
  simp [decodeRaw, List.take_left, List.drop_left]

theorem decodeStr_encodeStr (s rest : Bytes) (h : s.length < 4294967296) :
    decodeStr (encodeStr s ++ rest) = .ok (s, rest) := by
  simp only [decodeStr, encodeStr, List.append_assoc]
  rw [decodeU32_encodeU32 s.length (s ++ rest) h]
  simpa using decodeRaw_append s rest

theorem encodeStr_length (s : Bytes) : (encodeStr s).length = 4 + s.length := by
  simp [encodeStr, encodeU32]
  omega

/-! ## Algorithm tag

Modelled from the spec: §4.2 "Algorithm tag" (the `Algorithm` type is
not under `src/`). Names are the ASCII bytes of the SSH algorithm name
strings. -/

/-- ASCII bytes of `"ssh-dss"`. -/
def nameSshDss : Bytes := [115, 115, 104, 45, 100, 115, 115]

/-- ASCII bytes of `"ssh-rsa"`. -/
def nameSshRsa : Bytes := [115, 115, 104, 45, 114, 115, 97]

/-- ASCII bytes of `"ssh-ed25519"`. -/
def nameSshEd25519 : Bytes := [115, 115, 104, 45, 101, 100, 50, 53, 53, 49, 57]

/-- ASCII bytes of `"ecdsa-sha2-nistp256"`. -/
def nameEcdsaNistP256 : Bytes :=
  [101, 99, 100, 115, 97, 45, 115, 104, 97, 50, 45, 110, 105, 115, 116, 112, 50, 53, 54]

/-- ASCII bytes of `"ecdsa-sha2-nistp384"`. -/
def nameEcdsaNistP384 : Bytes :=
  [101, 99, 100, 115, 97, 45, 115, 104, 97, 50, 45, 110, 105, 115, 116, 112, 51, 56, 52]

/-- ASCII bytes of `"ecdsa-sha2-nistp521"`. -/
def nameEcdsaNistP521 : Bytes :=
  [101, 99, 100, 115, 97, 45, 115, 104, 97, 50, 45, 110, 105, 115, 116, 112, 53, 50, 49]

/-- ASCII bytes of `"nistp256"`. -/
def nameNistP256 : Bytes := [110, 105, 115, 116, 112, 50, 53, 54]

/-- ASCII bytes of `"nistp384"`. -/
def nameNistP384 : Bytes := [110, 105, 115, 116, 112, 51, 56, 52]

/-- ASCII bytes of `"nistp521"`. -/
def nameNistP521 : Bytes := [110, 105, 115, 116, 112, 53, 50, 49]

/-- ASCII bytes of `"none"`. -/
def nameNone : Bytes := [110, 111, 110, 101]

/-- ASCII bytes of `"aes256-ctr"`. -/
def nameAes256Ctr : Bytes := [97, 101, 115, 50, 53, 54, 45, 99, 116, 114]

/-- ASCII bytes of `"bcrypt"`. -/
def nameBcrypt : Bytes := [98, 99, 114, 121, 112, 116]

/-- NIST curves supported for ECDSA keys. -/
inductive EcdsaCurve where
  | nistP256
  | nistP384
  | nistP521
  deriving DecidableEq, Repr

/-- Wire name of a curve (the `curve_name` string inside an ECDSA body). -/
def EcdsaCurve.name : EcdsaCurve → Bytes
  | .nistP256 => nameNistP256
  | .nistP384 => nameNistP384
  | .nistP521 => nameNistP521

/-- Digital signature algorithm identifiers. -/
inductive Algorithm where
  | Dsa
  | Ecdsa (curve : EcdsaCurve)
  | Ed25519
  | Rsa
  deriving DecidableEq, Repr

/-- Canonical SSH name of an algorithm. -/
def Algorithm.name : Algorithm → Bytes
  | .Dsa => nameSshDss
  | .Ecdsa .nistP256 => nameEcdsaNistP256
  | .Ecdsa .nistP384 => nameEcdsaNistP384
  | .Ecdsa .nistP521 => nameEcdsaNistP521
  | .Ed25519 => nameSshEd25519
  | .Rsa => nameSshRsa

/-- Modelled from the spec: the tag's `encoded_len` equals `4 + name.len()`. -/
def Algorithm.encodedLen (a : Algorithm) : Nat := 4 + a.name.length

/-- Modelled from the spec: encode writes the canonical name string. -/
def Algorithm.encode (a : Algorithm) : Bytes := encodeStr a.name

/-- Modelled from the spec: decode reads a string, matches the known
names, and fails with `Algorithm` on unknown names. -/
def Algorithm.decode (bs : Bytes) : Except Error (Algorithm × Bytes) := do
  let (s, r) ← decodeStr bs
  if s = nameSshDss then pure (.Dsa, r)
  else if s = nameSshRsa then pure (.Rsa, r)
  else if s = nameSshEd25519 then pure (.Ed25519, r)
  else if s = nameEcdsaNistP256 then pure (.Ecdsa .nistP256, r)
  else if s = nameEcdsaNistP384 then pure (.Ecdsa .nistP384, r)
  else if s = nameEcdsaNistP521 then pure (.Ecdsa .nistP521, r)
  else .error .Algorithm

theorem Algorithm.decode_encode_name (a : Algorithm) (rest : Bytes) :
    Algorithm.decode (a.encode ++ rest) = .ok (a, rest) := by
  cases a with
  | Ecdsa c =>
    cases c <;>
      (simp only [Algorithm.decode, Algorithm.encode, Algorithm.name]
       rw [decodeStr_encodeStr _ _ (by decide)]
       rfl)
  | _ =>
    simp only [Algorithm.decode, Algorithm.encode, Algorithm.name]
    rw [decodeStr_encodeStr _ _ (by decide)]
    rfl

/-! ## Per-algorithm keypair bodies

Modelled from the spec: §4.5 "Per-algorithm keypair bodies"
(`private/{dsa,ecdsa,ed25519,rsa}.rs` are not under `src/`). An mpint is
stored as its wire byte payload; its encoding on the wire is identical
to an SSH string (`u32` length prefix + bytes). -/

/-- Modelled from the spec: mpint wire encoding (length prefix + bytes). -/
def encodeMpint (m : Bytes) : Bytes := encodeStr m

/-- Modelled from the spec: mpint wire decoding. -/
def decodeMpint (bs : Bytes) : Except Error (Bytes × Bytes) := decodeStr bs

/-- Ed25519 keypair: 32-byte public key and 32-byte private seed. -/
structure Ed25519Keypair where
  publicKey : Bytes
  privateKey : Bytes
  deriving DecidableEq, Repr

/-- Well-formedness corresponding to the Rust fixed-size array types
(`[u8; 32]` for each half). -/
def Ed25519Keypair.wf (k : Ed25519Keypair) : Prop :=
  k.publicKey.length = 32 ∧ k.privateKey.length = 32

/-- Modelled from the spec: Ed25519 body is
`string public(32) || string (private(32) || public(32))`. -/
def Ed25519Keypair.encode (k : Ed25519Keypair) : Bytes :=
  encodeStr k.publicKey ++ encodeStr (k.privateKey ++ k.publicKey)

/-- Modelled from the spec: decode the Ed25519 body, enforcing the fixed
field sizes. -/
def Ed25519Keypair.decode (bs : Bytes) : Except Error (Ed25519Keypair × Bytes) := do
  let (pub, r1) ← decodeStr bs
  if pub.length = 32 then do
    let (pp, r2) ← decodeStr r1
    if pp.length = 64 then pure (⟨pub, pp.take 32⟩, r2) else .error .Length
  else .error .Length

/-- Modelled from the spec: exact emitted byte length of the body. -/
def Ed25519Keypair.encodedLen (k : Ed25519Keypair) : Nat :=
  4 + k.publicKey.length + (4 + (k.privateKey.length + k.publicKey.length))

/-- ECDSA keypair over a NIST curve: SEC1 point and private scalar. -/
structure EcdsaKeypair where
  curve : EcdsaCurve
  publicKey : Bytes
  privateKey : Bytes
  deriving DecidableEq, Repr

/-- Lengths fit in the `u32` wire length prefixes. -/
def EcdsaKeypair.wf (k : EcdsaKeypair) : Prop :=
  k.publicKey.length < 4294967296 ∧ k.privateKey.length < 4294967296

/-- Modelled from the spec: ECDSA body is
`string curve_name || string point || mpint scalar`. -/
def EcdsaKeypair.encode (k : EcdsaKeypair) : Bytes :=
  encodeStr k.curve.name ++ encodeStr k.publicKey ++ encodeMpint k.privateKey

/-- Modelled from the spec: match a curve name string; an unknown curve
name fails with `Algorithm`. -/
def curveFromName (cn : Bytes) : Except Error EcdsaCurve :=
  if cn = nameNistP256 then pure EcdsaCurve.nistP256
  else if cn = nameNistP384 then pure EcdsaCurve.nistP384
  else if cn = nameNistP521 then pure EcdsaCurve.nistP521
  else .error .Algorithm

theorem curveFromName_name (c : EcdsaCurve) : curveFromName c.name = .ok c := by
  cases c <;> rfl

/-- Modelled from the spec: decode the ECDSA body; an unknown curve name
fails with `Algorithm`. -/
def EcdsaKeypair.decode (bs : Bytes) : Except Error (EcdsaKeypair × Bytes) := do
  let (cn, r1) ← decodeStr bs
  let curve ← curveFromName cn
  let (point, r2) ← decodeStr r1
  let (scalar, r3) ← decodeMpint r2
  pure (⟨curve, point, scalar⟩, r3)

/-- Modelled from the spec: exact emitted byte length of the body. -/
def EcdsaKeypair.encodedLen (k : EcdsaKeypair) : Nat :=
  4 + k.curve.name.length + (4 + k.publicKey.length) + (4 + k.privateKey.length)

/-- RSA keypair: mpints `n, e, d, iqmp, p, q`. -/
structure RsaKeypair where
  n : Bytes
  e : Bytes
  d : Bytes
  iqmp : Bytes
  p : Bytes
  q : Bytes
  deriving DecidableEq, Repr

/-- Lengths fit in the `u32` wire length prefixes. -/
def RsaKeypair.wf (k : RsaKeypair) : Prop :=
  k.n.length < 4294967296 ∧ k.e.length < 4294967296 ∧ k.d.length < 4294967296 ∧
    k.iqmp.length < 4294967296 ∧ k.p.length < 4294967296 ∧ k.q.length < 4294967296

/-- Modelled from the spec: RSA body is `mpint n, e, d, iqmp, p, q`. -/
def RsaKeypair.encode (k : RsaKeypair) : Bytes :=
  encodeMpint k.n ++ encodeMpint k.e ++ encodeMpint k.d ++ encodeMpint k.iqmp ++
    encodeMpint k.p ++ encodeMpint k.q

/-- Modelled from the spec: decode the RSA body. -/
def RsaKeypair.decode (bs : Bytes) : Except Error (RsaKeypair × Bytes) := do
  let (n, r1) ← decodeMpint bs
  let (e, r2) ← decodeMpint r1
  let (d, r3) ← decodeMpint r2
  let (iqmp, r4) ← decodeMpint r3
  let (p, r5) ← decodeMpint r4
  let (q, r6) ← decodeMpint r5
  pure (⟨n, e, d, iqmp, p, q⟩, r6)

/-- Modelled from the spec: exact emitted byte length of the body. -/
def RsaKeypair.encodedLen (k : RsaKeypair) : Nat :=
  4 + k.n.length + (4 + k.e.length) + (4 + k.d.length) + (4 + k.iqmp.length) +
    (4 + k.p.length) + (4 + k.q.length)

/-- DSA keypair: mpints `p, q, g, y, x`. -/
structure DsaKeypair where
  p : Bytes
  q : Bytes
  g : Bytes
  y : Bytes
  x : Bytes
  deriving DecidableEq, Repr

/-- Lengths fit in the `u32` wire length prefixes. -/
def DsaKeypair.wf (k : DsaKeypair) : Prop :=
  k.p.length < 4294967296 ∧ k.q.length < 4294967296 ∧ k.g.length < 4294967296 ∧
    k.y.length < 4294967296 ∧ k.x.length < 4294967296

/-- Modelled from the spec: DSA body is `mpint p, q, g, y, x`. -/
def DsaKeypair.encode (k : DsaKeypair) : Bytes :=
  encodeMpint k.p ++ encodeMpint k.q ++ encodeMpint k.g ++ encodeMpint k.y ++
    encodeMpint k.x

/-- Modelled from the spec: decode the DSA body. -/
def DsaKeypair.decode (bs : Bytes) : Except Error (DsaKeypair × Bytes) := do
  let (p, r1) ← decodeMpint bs
  let (q, r2) ← decodeMpint r1
  let (g, r3) ← decodeMpint r2
  let (y, r4) ← decodeMpint r3
  let (x, r5) ← decodeMpint r4
  pure (⟨p, q, g, y, x⟩, r5)

/-- Modelled from the spec: exact emitted byte length of the body. -/
def DsaKeypair.encodedLen (k : DsaKeypair) : Nat :=
  4 + k.p.length + (4 + k.q.length) + (4 + k.g.length) + (4 + k.y.length) +
    (4 + k.x.length)

/-! ### Keypair body round-trip lemmas -/

theorem Ed25519Keypair.decode_encode_ed25519 (k : Ed25519Keypair) (hwf : k.wf) (rest : Bytes) :
    Ed25519Keypair.decode (k.encode ++ rest) = .ok (k, rest) := by
  obtain ⟨hpub, hpriv⟩ := hwf
  simp only [Ed25519Keypair.decode, Ed25519Keypair.encode, List.append_assoc]
  rw [decodeStr_encodeStr _ _ (by omega)]
  simp only [hpub, bind, Except.bind, if_pos rfl]
  rw [decodeStr_encodeStr _ _ (by simp; omega)]
  have hlen : (k.privateKey ++ k.publicKey).length = 64 := by simp; omega
  simp only [hlen, if_pos rfl, bind, Except.bind]
  have htake : (k.privateKey ++ k.publicKey).take 32 = k.privateKey := by
    rw [← hpriv, List.take_left]
  simp [htake]
  rfl

theorem EcdsaKeypair.decode_encode_ecdsa (k : EcdsaKeypair) (hwf : k.wf) (rest : Bytes) :
    EcdsaKeypair.decode (k.encode ++ rest) = .ok (k, rest) := by
  obtain ⟨hpub, hpriv⟩ := hwf
  simp only [EcdsaKeypair.decode, EcdsaKeypair.encode, encodeMpint, decodeMpint,
    List.append_assoc]
  rw [decodeStr_encodeStr _ _ (by cases k.curve <;> decide)]
  simp only [bind, Except.bind]
  rw [curveFromName_name]
  rw [decodeStr_encodeStr _ _ hpub]
  simp only [bind, Except.bind]
  rw [decodeStr_encodeStr _ _ hpriv]
  rfl

theorem RsaKeypair.decode_encode_rsa (k : RsaKeypair) (hwf : k.wf) (rest : Bytes) :
    RsaKeypair.decode (k.encode ++ rest) = .ok (k, rest) := by
  obtain ⟨h1, h2, h3, h4, h5, h6⟩ := hwf
  simp only [RsaKeypair.decode, RsaKeypair.encode, encodeMpint, decodeMpint,
    List.append_assoc]
  rw [decodeStr_encodeStr _ _ h1]
  simp only [bind, Except.bind]
  rw [decodeStr_encodeStr _ _ h2]
  simp only [bind, Except.bind]
  rw [decodeStr_encodeStr _ _ h3]
  simp only [bind, Except.bind]
  rw [decodeStr_encodeStr _ _ h4]
  simp only [bind, Except.bind]
  rw [decodeStr_encodeStr _ _ h5]
  simp only [bind, Except.bind]
  rw [decodeStr_encodeStr _ _ h6]
  rfl

theorem DsaKeypair.decode_encode_dsa (k : DsaKeypair) (hwf : k.wf) (rest : Bytes) :
    DsaKeypair.decode (k.encode ++ rest) = .ok (k, rest) := by
  obtain ⟨h1, h2, h3, h4, h5⟩ := hwf
  simp only [DsaKeypair.decode, DsaKeypair.encode, encodeMpint, decodeMpint,
    List.append_assoc]
  rw [decodeStr_encodeStr _ _ h1]
  simp only [bind, Except.bind]
  rw [decodeStr_encodeStr _ _ h2]
  simp only [bind, Except.bind]
  rw [decodeStr_encodeStr _ _ h3]
  simp only [bind, Except.bind]
  rw [decodeStr_encodeStr _ _ h4]
  simp only [bind, Except.bind]
  rw [decodeStr_encodeStr _ _ h5]
  rfl

theorem Ed25519Keypair.encode_length_ed25519 (k : Ed25519Keypair) :
    k.encode.length = k.encodedLen := by
  simp [Ed25519Keypair.encode, Ed25519Keypair.encodedLen, encodeStr_length]

theorem EcdsaKeypair.encode_length_ecdsa (k : EcdsaKeypair) :
    k.encode.length = k.encodedLen := by
  simp [EcdsaKeypair.encode, EcdsaKeypair.encodedLen, encodeMpint, encodeStr_length]
  omega

theorem RsaKeypair.encode_length_rsa (k : RsaKeypair) :
    k.encode.length = k.encodedLen := by
  simp [RsaKeypair.encode, RsaKeypair.encodedLen, encodeMpint, encodeStr_length]
  omega

theorem DsaKeypair.encode_length_dsa (k : DsaKeypair) :
    k.encode.length = k.encodedLen := by
  simp [DsaKeypair.encode, DsaKeypair.encodedLen, encodeMpint, encodeStr_length]
  omega

/-! ## Public key collaborator

Modelled from the spec: §3 "PublicKey" and §6 "PublicKey collaborator"
(`public.rs` is not under `src/`). -/

/-- Public key data (`public::KeyData`), the public projection of a
keypair. -/
inductive PubKeyData where
  | Dsa (p q g y : Bytes)
  | Ecdsa (curve : EcdsaCurve) (point : Bytes)
  | Ed25519 (publicKey : Bytes)
  | Rsa (e n : Bytes)
  deriving DecidableEq, Repr

/-- Algorithm of a public key. -/
def PubKeyData.algorithm : PubKeyData → Algorithm
  | .Dsa _ _ _ _ => .Dsa
  | .Ecdsa curve _ => .Ecdsa curve
  | .Ed25519 _ => .Ed25519
  | .Rsa _ _ => .Rsa

/-- Modelled from the spec: wire form of a public key, algorithm name
followed by the public components. -/
def PubKeyData.encode (pd : PubKeyData) : Bytes :=
  pd.algorithm.encode ++
    match pd with
    | .Dsa p q g y => encodeMpint p ++ encodeMpint q ++ encodeMpint g ++ encodeMpint y
    | .Ecdsa curve point => encodeStr curve.name ++ encodeStr point
    | .Ed25519 pk => encodeStr pk
    | .Rsa e n => encodeMpint e ++ encodeMpint n

/-- Modelled from the spec: decode a public key from its wire form. -/
def PubKeyData.decode (bs : Bytes) : Except Error (PubKeyData × Bytes) := do
  let (alg, r) ← Algorithm.decode bs
  match alg with
  | .Dsa => do
    let (p, r1) ← decodeMpint r
    let (q, r2) ← decodeMpint r1
    let (g, r3) ← decodeMpint r2
    let (y, r4) ← decodeMpint r3
    pure (.Dsa p q g y, r4)
  | .Ecdsa curve => do
    let (cn, r1) ← decodeStr r
    if cn = curve.name then do
      let (point, r2) ← decodeStr r1
      pure (.Ecdsa curve point, r2)
    else .error .Algorithm
  | .Ed25519 => do
    let (pk, r1) ← decodeStr r
    if pk.length = 32 then pure (.Ed25519 pk, r1) else .error .Length
  | .Rsa => do
    let (e, r1) ← decodeMpint r
    let (n, r2) ← decodeMpint r1
    pure (.Rsa e n, r2)

/-- Modelled from the spec: `checkint()` is a deterministic 32-bit
digest over the public key bytes. -/
def PubKeyData.checkint (pd : PubKeyData) : Nat := pd.encode.sum % 4294967296

theorem PubKeyData.checkint_lt (pd : PubKeyData) : pd.checkint < 4294967296 :=
  Nat.mod_lt _ (by decide)

/-- SSH public key: public key data plus the comment. Comments are
modelled as raw byte strings (UTF-8 validation is a collaborator
concern). -/
structure PublicKey where
  key_data : PubKeyData
  comment : Bytes
  deriving DecidableEq, Repr

/-- Modelled from the spec: `decode_comment(decoder)` reads a string and
stores it as the comment. -/
def PublicKey.decodeComment (pk : PublicKey) (bs : Bytes) :
    Except Error (PublicKey × Bytes) := do
  let (c, r) ← decodeStr bs
  pure ({ pk with comment := c }, r)

/-- Modelled from the spec: `PublicKey::from(key_data)` wraps public key
data with a default (empty) comment. -/
def PublicKey.fromKeyData (pd : PubKeyData) : PublicKey := ⟨pd, []⟩

/-! ## Cipher and KDF descriptors

Modelled from the spec: §4.3 "Cipher descriptor" and §4.4 "KDF
descriptor" (`cipher.rs` and `kdf.rs` are not under `src/`). The
optional cipher is `Option Cipher`; `none` is the `"none"` wire name. -/

/-- Supported symmetric cipher (the default and only one the encryption
path uses). -/
inductive Cipher where
  | Aes256Ctr
  deriving DecidableEq, Repr

/-- Modelled from the spec: AES block size is 16. -/
def Cipher.blockSize : Cipher → Nat
  | .Aes256Ctr => 16

/-- Modelled from the spec: AES-256 key size. -/
def Cipher.keySize : Cipher → Nat
  | .Aes256Ctr => 32

/-- Modelled from the spec: AES-CTR IV size. -/
def Cipher.ivSize : Cipher → Nat
  | .Aes256Ctr => 16

/-- Wire name of an optional cipher (`none` ⇔ `"none"`). -/
def cipherOptName : Option Cipher → Bytes
  | none => nameNone
  | some .Aes256Ctr => nameAes256Ctr

/-- Modelled from the spec: encode the `ciphername` string. -/
def encodeCipherOpt (c : Option Cipher) : Bytes := encodeStr (cipherOptName c)

/-- Modelled from the spec: decode the `ciphername` string; `"none"`
yields the optional-cipher `none`. -/
def decodeCipherOpt (bs : Bytes) : Except Error (Option Cipher × Bytes) := do
  let (s, r) ← decodeStr bs
  if s = nameNone then pure (none, r)
  else if s = nameAes256Ctr then pure (some .Aes256Ctr, r)
  else .error .Algorithm

/-- KDF descriptor: `{None, Bcrypt{salt, rounds}}`. -/
inductive Kdf where
  | None
  | Bcrypt (salt : Bytes) (rounds : Nat)
  deriving DecidableEq, Repr

/-- Modelled from the spec: default bcrypt-pbkdf rounds used by
`Kdf::new` (16). -/
def DEFAULT_KDF_ROUNDS : Nat := 16

/-- Modelled from the spec: wire form of a KDF, a name string followed
by a length-prefixed options blob (`string salt || u32 rounds` for
bcrypt, empty for none). -/
def Kdf.encode : Kdf → Bytes
  | .None => encodeStr nameNone ++ encodeStr []
  | .Bcrypt salt rounds =>
    encodeStr nameBcrypt ++ encodeStr (encodeStr salt ++ encodeU32 rounds)

/-- Modelled from the spec: decode a KDF descriptor. -/
def Kdf.decode (bs : Bytes) : Except Error (Kdf × Bytes) := do
  let (name, r) ← decodeStr bs
  if name = nameNone then do
    let (_, r2) ← decodeStr r
    pure (Kdf.None, r2)
  else if name = nameBcrypt then do
    let ((salt, rounds), r2) ← decodeLengthPrefixed
      (fun inner => do
        let (salt, i1) ← decodeStr inner
        let (rounds, i2) ← decodeU32 i1
        pure ((salt, rounds), i2)) r
    pure (Kdf.Bcrypt salt rounds, r2)
  else .error .Algorithm

/-- External crypto provider (spec §6 "Crypto provider contract"): the
cipher's in-place encrypt/decrypt and bcrypt-pbkdf, all abstract. -/
structure CryptoProvider where
  encrypt : Bytes → Bytes → Bytes → Bytes
  decrypt : Bytes → Bytes → Bytes → Bytes
  bcryptPbkdf : Bytes → Bytes → Nat → Nat → Bytes

/-- Modelled from the spec: `derive_key_and_iv(cipher, password)` runs
bcrypt-pbkdf into a `key_size + iv_size` buffer and splits it; fails
with `Decrypted` when the KDF is `None`. -/
def Kdf.deriveKeyAndIv (cp : CryptoProvider) (kdf : Kdf) (cipher : Cipher)
    (password : Bytes) : Except Error (Bytes × Bytes) :=
  match kdf with
  | .None => .error .Decrypted
  | .Bcrypt salt rounds =>
    let okm := cp.bcryptPbkdf password salt rounds (cipher.keySize + cipher.ivSize)
    .ok (okm.take cipher.keySize, okm.drop cipher.keySize)

/-! ## Private key data (`src/ssh-key/src/private.rs`)

From here on the definitions are translated from the source file
itself. PEM line wrapping and base64 are the PEM collaborator; the
functions below work on the decoded binary body of the PEM envelope. -/

/-- `DEFAULT_BLOCK_SIZE`: block size to use for unencrypted keys. -/
def DEFAULT_BLOCK_SIZE : Nat := 8

/-- `MAX_BLOCK_SIZE`: maximum supported block size (AES). -/
def MAX_BLOCK_SIZE : Nat := 16

/-- `PADDING_BYTES`: the `MAX_BLOCK_SIZE - 1 = 15` padding bytes. -/
def PADDING_BYTES : Bytes := [1, 2, 3, 4, 5, 6, 7, 8, 9, 10, 11, 12, 13, 14, 15]

/-- `AUTH_MAGIC`: the bytes of `"openssh-key-v1\0"`. -/
def AUTH_MAGIC : Bytes := [111, 112, 101, 110, 115, 115, 104, 45, 107, 101, 121, 45, 118, 49, 0]

/-- `padding_len`: compute padding length for the given input length
and block size. -/
def padding_len (input_size block_size : Nat) : Nat :=
  let input_rem := input_size % block_size
  if input_rem = 0 then 0 else block_size - input_rem

/-- `KeypairData`: private key data, one arm per algorithm plus the
opaque ciphertext of an encrypted key. -/
inductive KeypairData where
  | Dsa (key : DsaKeypair)
  | Ecdsa (key : EcdsaKeypair)
  | Ed25519 (key : Ed25519Keypair)
  | Encrypted (ciphertext : Bytes)
  | Rsa (key : RsaKeypair)
  deriving DecidableEq, Repr

/-- `KeypairData::algorithm`: fails with `Encrypted` on the encrypted
arm. -/
def KeypairData.algorithm : KeypairData → Except Error Algorithm
  | .Dsa _ => .ok .Dsa
  | .Ecdsa key => .ok (.Ecdsa key.curve)
  | .Ed25519 _ => .ok .Ed25519
  | .Encrypted _ => .error .Encrypted
  | .Rsa _ => .ok .Rsa

/-- `KeypairData::is_encrypted`. -/
def KeypairData.is_encrypted : KeypairData → Bool
  | .Encrypted _ => true
  | _ => false

/-- `public::KeyData::try_from(&KeypairData)`: the public projection;
fails with `Encrypted` on the encrypted arm. -/
def KeypairData.toPublic : KeypairData → Except Error PubKeyData
  | .Dsa key => .ok (.Dsa key.p key.q key.g key.y)
  | .Ecdsa key => .ok (.Ecdsa key.curve key.publicKey)
  | .Ed25519 key => .ok (.Ed25519 key.publicKey)
  | .Encrypted _ => .error .Encrypted
  | .Rsa key => .ok (.Rsa key.e key.n)

/-- Well-formedness of key data: every byte-string field fits its wire
length prefix (automatic in Rust from the field types). -/
def KeypairData.wf : KeypairData → Prop
  | .Dsa key => key.wf
  | .Ecdsa key => key.wf
  | .Ed25519 key => key.wf
  | .Encrypted _ => True
  | .Rsa key => key.wf

/-- `KeypairData::encoded_len` (impl `Encode`): ciphertext length for
the encrypted arm, otherwise two checkints plus algorithm tag plus
body. -/
def KeypairData.encoded_len (kd : KeypairData) : Except Error Nat := do
  let header_len ←
    if kd.is_encrypted then pure 0
    else do
      let alg ← kd.algorithm
      pure (8 + alg.encodedLen)
  let key_len :=
    match kd with
    | .Dsa key => key.encodedLen
    | .Ecdsa key => key.encodedLen
    | .Ed25519 key => key.encodedLen
    | .Encrypted ciphertext => ciphertext.length
    | .Rsa key => key.encodedLen
  pure (header_len + key_len)

/-- `KeypairData::encode` (impl `Encode`): for plaintext arms write the
deterministic checkint twice, the algorithm tag, then the body; for the
encrypted arm write the ciphertext as-is. -/
def KeypairData.encode (kd : KeypairData) : Except Error Bytes := do
  let header ←
    if kd.is_encrypted then pure ([] : Bytes)
    else do
      let checkint := (← kd.toPublic).checkint
      let alg ← kd.algorithm
      pure (encodeU32 checkint ++ encodeU32 checkint ++ alg.encode)
  let body :=
    match kd with
    | .Dsa key => key.encode
    | .Ecdsa key => key.encode
    | .Ed25519 key => key.encode
    | .Encrypted ciphertext => ciphertext
    | .Rsa key => key.encode
  pure (header ++ body)

/-- `KeypairData::decode` (impl `Decode`): two checkints (unequal fails
`Crypto`), the algorithm tag, then the per-algorithm body; an ECDSA
body whose curve disagrees with the outer tag fails `Algorithm`. -/
def KeypairData.decode (bs : Bytes) : Except Error (KeypairData × Bytes) := do
  let (checkint1, r1) ← decodeU32 bs
  let (checkint2, r2) ← decodeU32 r1
  if checkint1 ≠ checkint2 then .error .Crypto
  else do
    let (alg, r3) ← Algorithm.decode r2
    match alg with
    | .Dsa => do
      let (key, r4) ← DsaKeypair.decode r3
      pure (KeypairData.Dsa key, r4)
    | .Ecdsa curve => do
      let (keypair, r4) ← EcdsaKeypair.decode r3
      if keypair.curve = curve then pure (KeypairData.Ecdsa keypair, r4)
      else .error .Algorithm
    | .Ed25519 => do
      let (key, r4) ← Ed25519Keypair.decode r3
      pure (KeypairData.Ed25519 key, r4)
    | .Rsa => do
      let (key, r4) ← RsaKeypair.decode r3
      pure (KeypairData.Rsa key, r4)

/-- `KeypairData::encoded_len_with_comment`: length sans padding. -/
def KeypairData.encoded_len_with_comment (kd : KeypairData) (comment : Bytes) :
    Except Error Nat := do
  pure ((← kd.encoded_len) + 4 + comment.length)

/-- `KeypairData::decode_with_comment`: the plaintext-inside-blob
parser; checks the block alignment, decodes the key data, validates it
against the supplied public key, reads the comment into the public key,
and validates the padding. -/
def KeypairData.decode_with_comment (bs : Bytes) (public_key : PublicKey)
    (block_size : Nat) : Except Error (KeypairData × PublicKey) := do
  if bs.length % block_size ≠ 0 then .error .Length
  else do
    let (key_data, r1) ← KeypairData.decode bs
    let derived ← key_data.toPublic
    if public_key.key_data ≠ derived then .error .PublicKey
    else do
      let (public_key, r2) ← public_key.decodeComment r1
      let padding_length := r2.length
      if padding_length ≥ block_size then .error .Length
      else if padding_length ≠ 0 ∧ PADDING_BYTES.take padding_length ≠ r2.take padding_length then
        .error .FormatEncoding
      else if r2.drop padding_length ≠ [] then .error .Length
      else pure (key_data, public_key)

/-- `KeypairData::encode_with_comment`: body, then comment string, then
padding bytes; forbids the encrypted arm. -/
def KeypairData.encode_with_comment (kd : KeypairData) (comment : Bytes)
    (block_size : Nat) : Except Error Bytes := do
  if kd.is_encrypted then .error .Encrypted
  else do
    let private_key_len ← kd.encoded_len_with_comment comment
    let pad := padding_len private_key_len block_size
    let body ← kd.encode
    pure (body ++ encodeStr comment ++ PADDING_BYTES.take pad)

/-- `KeypairData::ct_eq` (impl `ConstantTimeEq`): same-arm values
compare their data, different arms compare unequal. -/
def KeypairData.ct_eq (a b : KeypairData) : Bool :=
  match a, b with
  | .Dsa x, .Dsa y => decide (x = y)
  | .Ecdsa x, .Ecdsa y => decide (x = y)
  | .Ed25519 x, .Ed25519 y => decide (x = y)
  | .Encrypted x, .Encrypted y => decide (x = y)
  | .Rsa x, .Rsa y => decide (x = y)
  | _, _ => false

/-- `PrivateKey`: cipher, KDF, public key and key data. -/
structure PrivateKey where
  cipher : Option Cipher
  kdf : Kdf
  public_key : PublicKey
  key_data : KeypairData
  deriving DecidableEq, Repr

/-- `PrivateKey::comment`. -/
def PrivateKey.comment (p : PrivateKey) : Bytes := p.public_key.comment

/-- `PrivateKey::is_encrypted` (returns `key_data.is_encrypted()`; the
agreement with `cipher.is_some()` is only debug-asserted). -/
def PrivateKey.is_encrypted (p : PrivateKey) : Bool := p.key_data.is_encrypted

/-- `PrivateKey::private_key_len`: length of the private key data in
bytes, including padding. -/
def PrivateKey.private_key_len (p : PrivateKey) (block_size : Nat) :
    Except Error Nat :=
  if p.is_encrypted then p.key_data.encoded_len
  else do
    let len ← p.key_data.encoded_len_with_comment p.comment
    pure (len + padding_len len block_size)

/-- `TryFrom<KeypairData> for PrivateKey`: lift key data into a fresh
unencrypted private key (empty comment). -/
def PrivateKey.try_from (key_data : KeypairData) : Except Error PrivateKey := do
  let public_key ← key_data.toPublic
  pure ⟨none, Kdf.None, PublicKey.fromKeyData public_key, key_data⟩

/-- `PrivateKey::new`: like `try_from` but sets the comment; fails with
`Encrypted` on encrypted key data. -/
def PrivateKey.new (key_data : KeypairData) (comment : Bytes) :
    Except Error PrivateKey := do
  if key_data.is_encrypted then .error .Encrypted
  else do
    let pk ← PrivateKey.try_from key_data
    pure { pk with public_key := { pk.public_key with comment := comment } }

/-- `PrivateKey::from_openssh` on the PEM-decoded binary body: magic,
cipher, KDF, `nkeys = 1`, length-prefixed public key, then either the
ciphertext byte-vec or the length-prefixed plaintext region. -/
def PrivateKey.from_openssh (input : Bytes) : Except Error PrivateKey := do
  let (auth_magic, r0) ← decodeRaw AUTH_MAGIC.length input
  if auth_magic ≠ AUTH_MAGIC then .error .FormatEncoding
  else do
    let (cipher, r1) ← decodeCipherOpt r0
    let (kdf, r2) ← Kdf.decode r1
    let (nkeys, r3) ← decodeU32 r2
    if nkeys ≠ 1 then .error .Length
    else do
      let (pub_data, r4) ← decodeLengthPrefixed PubKeyData.decode r3
      let public_key := PublicKey.fromKeyData pub_data
      if cipher.isSome then do
        let (ciphertext, r5) ← decodeStr r4
        if r5 ≠ [] then .error .Length
        else pure ⟨cipher, kdf, public_key, .Encrypted ciphertext⟩
      else do
        let (kdpk, _) ← decodeLengthPrefixed
          (fun inner => do
            let x ← KeypairData.decode_with_comment inner public_key DEFAULT_BLOCK_SIZE
            pure (x, ([] : Bytes))) r4
        pure ⟨cipher, kdf, kdpk.2, kdpk.1⟩

/-- `PrivateKey::encode_openssh` on the binary body (the PEM wrapper is
the collaborator): exact inverse of `from_openssh`, with `nkeys = 1`
and the inner length prefix from `private_key_len`. -/
def PrivateKey.encode_openssh (p : PrivateKey) : Except Error Bytes := do
  let pkl ← p.private_key_len DEFAULT_BLOCK_SIZE
  let priv_region ←
    if p.is_encrypted then p.key_data.encode
    else p.key_data.encode_with_comment p.comment DEFAULT_BLOCK_SIZE
  pure (AUTH_MAGIC ++ encodeCipherOpt p.cipher ++ p.kdf.encode ++ encodeU32 1 ++
    encodeStr p.public_key.key_data.encode ++ encodeU32 pkl ++ priv_region)

/-- `PrivateKey::encrypt`: fail `Encrypted` when already encrypted;
otherwise derive key and IV from a fresh bcrypt KDF (the 16 salt bytes
stand for the rng output), encode the plaintext with the cipher's block
size, encrypt it, and rebuild the public key from its key data alone. -/
def PrivateKey.encrypt (cp : CryptoProvider) (p : PrivateKey) (salt : Bytes)
    (password : Bytes) : Except Error PrivateKey := do
  if p.is_encrypted then .error .Encrypted
  else do
    let cipher := Cipher.Aes256Ctr
    let kdf := Kdf.Bcrypt salt DEFAULT_KDF_ROUNDS
    let (key_bytes, iv_bytes) ← kdf.deriveKeyAndIv cp cipher password
    let buffer ← p.key_data.encode_with_comment p.comment cipher.blockSize
    pure ⟨some cipher, kdf, PublicKey.fromKeyData p.public_key.key_data,
      .Encrypted (cp.encrypt key_bytes iv_bytes buffer)⟩

/-- `PrivateKey::decrypt`: fail `Decrypted` when not encrypted;
otherwise derive key and IV, decrypt the ciphertext, and re-parse the
plaintext with `decode_with_comment`. -/
def PrivateKey.decrypt (cp : CryptoProvider) (p : PrivateKey) (password : Bytes) :
    Except Error PrivateKey := do
  let cipher ← match p.cipher with
    | some c => pure c
    | none => .error .Decrypted
  let (key_bytes, iv_bytes) ← p.kdf.deriveKeyAndIv cp cipher password
  let ciphertext ← match p.key_data with
    | .Encrypted ct => pure ct
    | _ => .error .Decrypted
  let buffer := cp.decrypt key_bytes iv_bytes ciphertext
  let (key_data, public_key) ←
    KeypairData.decode_with_comment buffer p.public_key cipher.blockSize
  pure ⟨none, Kdf.None, public_key, key_data⟩

/-- `PrivateKey::ct_eq` (impl `ConstantTimeEq`): constant-time on the
key data, ordinary equality on cipher, KDF and public key. -/
def PrivateKey.ct_eq (a b : PrivateKey) : Bool :=
  a.key_data.ct_eq b.key_data &&
    (decide (a.cipher = b.cipher) && decide (a.kdf = b.kdf) &&
      decide (a.public_key = b.public_key))

/-! ## Padding arithmetic -/

theorem padding_len_lt (L B : Nat) (hB : 0 < B) : padding_len L B < B := by
  unfold padding_len
  by_cases h : L % B = 0
  · simp [h, hB]
  · have := Nat.mod_lt L hB
    simp [h]
    omega

theorem padding_len_add_mod (L B : Nat) (hB : 0 < B) :
    (L + padding_len L B) % B = 0 := by
  unfold padding_len
  have hd := Nat.div_add_mod L B
  have hlt := Nat.mod_lt L hB
  by_cases h : L % B = 0
  · simp [h]
  · rw [if_neg h]
    have heq : L + (B - L % B) = B * (L / B + 1) := by
      rw [Nat.mul_add, Nat.mul_one]
      omega
    rw [heq, Nat.mul_mod_right]

theorem padding_len_le (L B : Nat) (hB : 0 < B) (hB16 : B ≤ 16) :
    padding_len L B ≤ 15 := by
  have := padding_len_lt L B hB
  omega

theorem PADDING_BYTES_take_length (p : Nat) (hp : p ≤ 15) :
    (PADDING_BYTES.take p).length = p := by
  rw [List.length_take]
  have : PADDING_BYTES.length = 15 := rfl
  omega

/-! ## KeypairData codec lemmas -/

/-- The encode of each plaintext arm: checkint twice, algorithm tag,
body. -/
theorem KeypairData.encode_dsa (key : DsaKeypair) :
    (KeypairData.Dsa key).encode =
      .ok (encodeU32 (PubKeyData.Dsa key.p key.q key.g key.y).checkint ++
        encodeU32 (PubKeyData.Dsa key.p key.q key.g key.y).checkint ++
        Algorithm.Dsa.encode ++ key.encode) := by
  simp [KeypairData.encode, KeypairData.is_encrypted, KeypairData.toPublic,
    KeypairData.algorithm, bind, Except.bind, pure, Except.pure]

theorem KeypairData.encode_ecdsa (key : EcdsaKeypair) :
    (KeypairData.Ecdsa key).encode =
      .ok (encodeU32 (PubKeyData.Ecdsa key.curve key.publicKey).checkint ++
        encodeU32 (PubKeyData.Ecdsa key.curve key.publicKey).checkint ++
        (Algorithm.Ecdsa key.curve).encode ++ key.encode) := by
  simp [KeypairData.encode, KeypairData.is_encrypted, KeypairData.toPublic,
    KeypairData.algorithm, bind, Except.bind, pure, Except.pure]

theorem KeypairData.encode_ed25519 (key : Ed25519Keypair) :
    (KeypairData.Ed25519 key).encode =
      .ok (encodeU32 (PubKeyData.Ed25519 key.publicKey).checkint ++
        encodeU32 (PubKeyData.Ed25519 key.publicKey).checkint ++
        Algorithm.Ed25519.encode ++ key.encode) := by
  simp [KeypairData.encode, KeypairData.is_encrypted, KeypairData.toPublic,
    KeypairData.algorithm, bind, Except.bind, pure, Except.pure]

theorem KeypairData.encode_rsa (key : RsaKeypair) :
    (KeypairData.Rsa key).encode =
      .ok (encodeU32 (PubKeyData.Rsa key.e key.n).checkint ++
        encodeU32 (PubKeyData.Rsa key.e key.n).checkint ++
        Algorithm.Rsa.encode ++ key.encode) := by
  simp [KeypairData.encode, KeypairData.is_encrypted, KeypairData.toPublic,
    KeypairData.algorithm, bind, Except.bind, pure, Except.pure]

theorem KeypairData.encode_encrypted (ct : Bytes) :
    (KeypairData.Encrypted ct).encode = .ok ct := by
  simp [KeypairData.encode, KeypairData.is_encrypted, bind, Except.bind, pure, Except.pure]

/-- Every key data encodes successfully. -/
theorem KeypairData.encode_ok (kd : KeypairData) : ∃ buf, kd.encode = .ok buf := by
  cases kd with
  | Dsa key => exact ⟨_, KeypairData.encode_dsa key⟩
  | Ecdsa key => exact ⟨_, KeypairData.encode_ecdsa key⟩
  | Ed25519 key => exact ⟨_, KeypairData.encode_ed25519 key⟩
  | Encrypted ct => exact ⟨_, KeypairData.encode_encrypted ct⟩
  | Rsa key => exact ⟨_, KeypairData.encode_rsa key⟩

/-- Decoding inverts encoding for every well-formed plaintext arm. -/
theorem KeypairData.decode_encode_keypair (kd : KeypairData) (hwf : kd.wf)
    (hne : kd.is_encrypted = false) (buf rest : Bytes)
    (henc : kd.encode = .ok buf) :
    KeypairData.decode (buf ++ rest) = .ok (kd, rest) := by
  cases kd with
  | Encrypted ct => simp [KeypairData.is_encrypted] at hne
  | Dsa key =>
    rw [KeypairData.encode_dsa key] at henc
    injection henc with henc
    subst henc
    simp only [KeypairData.decode, List.append_assoc]
    rw [decodeU32_encodeU32 _ _ (PubKeyData.checkint_lt _)]
    simp only [bind, Except.bind]
    rw [decodeU32_encodeU32 _ _ (PubKeyData.checkint_lt _)]
    dsimp only
    rw [if_neg (fun h => h rfl)]
    rw [Algorithm.decode_encode_name Algorithm.Dsa (key.encode ++ rest)]
    dsimp only
    rw [DsaKeypair.decode_encode_dsa key hwf rest]
    rfl
  | Ecdsa key =>
    rw [KeypairData.encode_ecdsa key] at henc
    injection henc with henc
    subst henc
    simp only [KeypairData.decode, List.append_assoc]
    rw [decodeU32_encodeU32 _ _ (PubKeyData.checkint_lt _)]
    simp only [bind, Except.bind]
    rw [decodeU32_encodeU32 _ _ (PubKeyData.checkint_lt _)]
    dsimp only
    rw [if_neg (fun h => h rfl)]
    rw [Algorithm.decode_encode_name (Algorithm.Ecdsa key.curve) (key.encode ++ rest)]
    dsimp only
    rw [EcdsaKeypair.decode_encode_ecdsa key hwf rest]
    dsimp only
    rw [if_pos rfl]
    rfl
  | Ed25519 key =>
    rw [KeypairData.encode_ed25519 key] at henc
    injection henc with henc
    subst henc
    simp only [KeypairData.decode, List.append_assoc]
    rw [decodeU32_encodeU32 _ _ (PubKeyData.checkint_lt _)]
    simp only [bind, Except.bind]
    rw [decodeU32_encodeU32 _ _ (PubKeyData.checkint_lt _)]
    dsimp only
    rw [if_neg (fun h => h rfl)]
    rw [Algorithm.decode_encode_name Algorithm.Ed25519 (key.encode ++ rest)]
    dsimp only
    rw [Ed25519Keypair.decode_encode_ed25519 key hwf rest]
    rfl
  | Rsa key =>
    rw [KeypairData.encode_rsa key] at henc
    injection henc with henc
    subst henc
    simp only [KeypairData.decode, List.append_assoc]
    rw [decodeU32_encodeU32 _ _ (PubKeyData.checkint_lt _)]
    simp only [bind, Except.bind]
    rw [decodeU32_encodeU32 _ _ (PubKeyData.checkint_lt _)]
    dsimp only
    rw [if_neg (fun h => h rfl)]
    rw [Algorithm.decode_encode_name Algorithm.Rsa (key.encode ++ rest)]
    dsimp only
    rw [RsaKeypair.decode_encode_rsa key hwf rest]
    rfl

theorem Algorithm.encode_length_name (a : Algorithm) :
    a.encode.length = a.encodedLen := by
  simp [Algorithm.encode, Algorithm.encodedLen, encodeStr_length]

/-- `encoded_len` returns exactly the number of bytes `encode` emits. -/
theorem KeypairData.encode_length_keypair (kd : KeypairData) (buf : Bytes)
    (henc : kd.encode = .ok buf) : kd.encoded_len = .ok buf.length := by
  cases kd with
  | Encrypted ct =>
    rw [KeypairData.encode_encrypted] at henc
    injection henc with henc
    subst henc
    simp [KeypairData.encoded_len, KeypairData.is_encrypted, bind, Except.bind,
      pure, Except.pure]
  | Dsa key =>
    rw [KeypairData.encode_dsa] at henc
    injection henc with henc
    subst henc
    simp [KeypairData.encoded_len, KeypairData.is_encrypted, KeypairData.algorithm,
      bind, Except.bind, pure, Except.pure, List.length_append, encodeU32_length,
      Algorithm.encode_length_name, DsaKeypair.encode_length_dsa]
    omega
  | Ecdsa key =>
    rw [KeypairData.encode_ecdsa] at henc
    injection henc with henc
    subst henc
    simp [KeypairData.encoded_len, KeypairData.is_encrypted, KeypairData.algorithm,
      bind, Except.bind, pure, Except.pure, List.length_append, encodeU32_length,
      Algorithm.encode_length_name, EcdsaKeypair.encode_length_ecdsa]
    omega
  | Ed25519 key =>
    rw [KeypairData.encode_ed25519] at henc
    injection henc with henc
    subst henc
    simp [KeypairData.encoded_len, KeypairData.is_encrypted, KeypairData.algorithm,
      bind, Except.bind, pure, Except.pure, List.length_append, encodeU32_length,
      Algorithm.encode_length_name, Ed25519Keypair.encode_length_ed25519]
    omega
  | Rsa key =>
    rw [KeypairData.encode_rsa] at henc
    injection henc with henc
    subst henc
    simp [KeypairData.encoded_len, KeypairData.is_encrypted, KeypairData.algorithm,
      bind, Except.bind, pure, Except.pure, List.length_append, encodeU32_length,
      Algorithm.encode_length_name, RsaKeypair.encode_length_rsa]
    omega

/-- The bytes `encode_with_comment` emits: body, comment string, padding
prefix. -/
theorem KeypairData.encode_with_comment_eq (kd : KeypairData) (comment : Bytes)
    (bs : Nat) (hne : kd.is_encrypted = false) (body : Bytes)
    (hbody : kd.encode = .ok body) :
    kd.encode_with_comment comment bs =
      .ok (body ++ encodeStr comment ++
        PADDING_BYTES.take (padding_len (body.length + 4 + comment.length) bs)) := by
  have hlen := KeypairData.encode_length_keypair kd body hbody
  simp only [KeypairData.encode_with_comment, KeypairData.encoded_len_with_comment,
    hne, Bool.false_eq_true, if_false, bind, Except.bind, hlen, hbody]
  rfl

/-- Parsing inverts `encode_with_comment` and stores the comment into
the supplied public key, for any block size in `[1, 16]` and a public
key matching the key data's public projection. -/
theorem KeypairData.decode_encode_with_comment (kd : KeypairData) (hwf : kd.wf)
    (hne : kd.is_encrypted = false) (comment : Bytes)
    (hc : comment.length < 4294967296) (pk : PublicKey)
    (hpub : kd.toPublic = .ok pk.key_data) (bs : Nat) (hbs : 0 < bs)
    (hbs16 : bs ≤ 16) (buf : Bytes)
    (henc : kd.encode_with_comment comment bs = .ok buf) :
    KeypairData.decode_with_comment buf pk bs =
      .ok (kd, { pk with comment := comment }) := by
  obtain ⟨body, hbody⟩ := KeypairData.encode_ok kd
  rw [KeypairData.encode_with_comment_eq kd comment bs hne body hbody] at henc
  injection henc with henc
  subst henc
  set L := body.length + 4 + comment.length with hL
  set pad := padding_len L bs with hpad
  have hpadlt : pad < bs := padding_len_lt L bs hbs
  have hpad15 : pad ≤ 15 := padding_len_le L bs hbs hbs16
  have htakelen : (PADDING_BYTES.take pad).length = pad :=
    PADDING_BYTES_take_length pad hpad15
  have hbuflen :
      (body ++ encodeStr comment ++ PADDING_BYTES.take pad).length = L + pad := by
    simp [List.length_append, encodeStr_length, htakelen, hL]
    omega
  have halign : (body ++ encodeStr comment ++ PADDING_BYTES.take pad).length % bs = 0 := by
    rw [hbuflen]
    exact padding_len_add_mod L bs hbs
  simp only [KeypairData.decode_with_comment]
  rw [if_neg (fun h => h halign)]
  rw [List.append_assoc body]
  rw [KeypairData.decode_encode_keypair kd hwf hne body _ hbody]
  simp only [bind, Except.bind, hpub]
  rw [if_neg (fun h => h rfl)]
  simp only [PublicKey.decodeComment]
  rw [decodeStr_encodeStr comment _ hc]
  simp only [bind, Except.bind, pure, Except.pure]
  rw [htakelen]
  rw [if_neg (fun h => absurd hpadlt (by omega))]
  have htaketake : (PADDING_BYTES.take pad).take pad = PADDING_BYTES.take pad := by
    rw [List.take_take]
    simp
  rw [if_neg (fun h => h.2 htaketake.symm)]
  have hdrop : (PADDING_BYTES.take pad).drop pad = [] :=
    List.drop_eq_nil_of_le (by rw [htakelen])
  rw [if_neg (fun h => h hdrop)]

theorem KeypairData.decode_not_encrypted (bs : Bytes) (kd : KeypairData) (r : Bytes)
    (h : KeypairData.decode bs = .ok (kd, r)) : kd.is_encrypted = false := by
  simp only [KeypairData.decode, bind, Except.bind] at h
  repeat' split at h
  all_goals simp_all [pure, Except.pure, KeypairData.is_encrypted]
  all_goals (obtain ⟨h1, h2⟩ := h; subst h1; rfl)

theorem KeypairData.decode_with_comment_ok (bs : Bytes) (pk : PublicKey)
    (b : Nat) (kd : KeypairData) (pk2 : PublicKey)
    (h : KeypairData.decode_with_comment bs pk b = .ok (kd, pk2)) :
    kd.is_encrypted = false ∧ kd.toPublic = .ok pk.key_data ∧
      pk2.key_data = pk.key_data := by
  simp only [KeypairData.decode_with_comment] at h
  by_cases ha : bs.length % b ≠ 0
  · rw [if_pos ha] at h
    exact absurd h (by simp)
  rw [if_neg ha] at h
  simp only [bind, Except.bind] at h
  cases h1 : KeypairData.decode bs with
  | error e => rw [h1] at h; exact absurd h (by simp)
  | ok v =>
    rw [h1] at h
    obtain ⟨kdd, r1⟩ := v
    dsimp only at h
    cases h2 : kdd.toPublic with
    | error e => rw [h2] at h; exact absurd h (by simp)
    | ok derived =>
      rw [h2] at h
      dsimp only at h
      by_cases h3 : pk.key_data ≠ derived
      · rw [if_pos h3] at h
        exact absurd h (by simp)
      rw [if_neg h3] at h
      push_neg at h3
      simp only [PublicKey.decodeComment, bind, Except.bind] at h
      cases h4 : decodeStr r1 with
      | error e => rw [h4] at h; exact absurd h (by simp)
      | ok w =>
        rw [h4] at h
        dsimp only at h
        simp only [pure, Except.pure] at h
        split at h
        · exact absurd h (by simp)
        split at h
        · exact absurd h (by simp)
        split at h
        · exact absurd h (by simp)
        injection h with h
        injection h with h5 h6
        subst h5
        subst h6
        exact ⟨KeypairData.decode_not_encrypted bs kdd r1 h1, h3 ▸ h2, rfl⟩

/-- Every key `from_openssh` returns has an Encrypted arm exactly when
the decoded cipher is present. -/
theorem PrivateKey.from_openssh_cipher_encrypted (input : Bytes) (K : PrivateKey)
    (h : PrivateKey.from_openssh input = .ok K) :
    K.cipher.isSome = K.key_data.is_encrypted := by
  simp only [PrivateKey.from_openssh, bind, Except.bind] at h
  cases h0 : decodeRaw AUTH_MAGIC.length input with
  | error e => rw [h0] at h; exact absurd h (by simp)
  | ok v0 =>
    rw [h0] at h
    dsimp only at h
    by_cases hm : v0.1 ≠ AUTH_MAGIC
    · rw [if_pos hm] at h
      exact absurd h (by simp)
    rw [if_neg hm] at h
    cases h1 : decodeCipherOpt v0.2 with
    | error e => rw [h1] at h; exact absurd h (by simp)
    | ok v1 =>
      rw [h1] at h
      dsimp only at h
      cases h2 : Kdf.decode v1.2 with
      | error e => rw [h2] at h; exact absurd h (by simp)
      | ok v2 =>
        rw [h2] at h
        dsimp only at h
        cases h3 : decodeU32 v2.2 with
        | error e => rw [h3] at h; exact absurd h (by simp)
        | ok v3 =>
          rw [h3] at h
          dsimp only at h
          by_cases hn : v3.1 ≠ 1
          · rw [if_pos hn] at h
            exact absurd h (by simp)
          rw [if_neg hn] at h
          cases h4 : decodeLengthPrefixed PubKeyData.decode v3.2 with
          | error e => rw [h4] at h; exact absurd h (by simp)
          | ok v4 =>
            rw [h4] at h
            dsimp only at h
            by_cases hc : v1.1.isSome
            · rw [if_pos hc] at h
              cases h5 : decodeStr v4.2 with
              | error e => rw [h5] at h; exact absurd h (by simp)
              | ok v5 =>
                rw [h5] at h
                dsimp only at h
                by_cases hr : v5.2 ≠ []
                · rw [if_pos hr] at h
                  exact absurd h (by simp)
                rw [if_neg hr] at h
                simp only [pure, Except.pure] at h
                injection h with h
                subst h
                simpa [KeypairData.is_encrypted] using hc
            · rw [if_neg hc] at h
              simp only [decodeLengthPrefixed, bind, Except.bind] at h
              cases h5 : decodeU32 v4.2 with
              | error e => rw [h5] at h; exact absurd h (by simp)
              | ok v5 =>
                rw [h5] at h
                dsimp only at h
                cases h6 : decodeRaw v5.1 v5.2 with
                | error e => rw [h6] at h; exact absurd h (by simp)
                | ok v6 =>
                  rw [h6] at h
                  dsimp only at h
                  cases h7 : KeypairData.decode_with_comment v6.1
                      (PublicKey.fromKeyData v4.1) DEFAULT_BLOCK_SIZE with
                  | error e => rw [h7] at h; exact absurd h (by simp)
                  | ok v7 =>
                    obtain ⟨kd7, pk7⟩ := v7
                    rw [h7] at h
                    dsimp only at h
                    simp only [pure, Except.pure, if_true] at h
                    injection h with h
                    subst h
                    have hne := (KeypairData.decode_with_comment_ok v6.1
                      (PublicKey.fromKeyData v4.1) DEFAULT_BLOCK_SIZE kd7 pk7 h7).1
                    simp only [Bool.not_eq_true] at hc
                    simpa [hne] using hc

/-- A successful public projection means the key data is a plaintext arm. -/
theorem KeypairData.toPublic_ok_not_encrypted (kd : KeypairData) (pd : PubKeyData)
    (h : kd.toPublic = .ok pd) : kd.is_encrypted = false := by
  cases kd <;> simp_all [KeypairData.toPublic, KeypairData.is_encrypted]

theorem KeypairData.ct_eq_refl_keypair (kd : KeypairData) : kd.ct_eq kd = true := by
  cases kd <;> simp [KeypairData.ct_eq]

theorem PrivateKey.ct_eq_refl_private_key (P : PrivateKey) : P.ct_eq P = true := by
  simp [PrivateKey.ct_eq, KeypairData.ct_eq_refl_keypair]

/-! ## Concrete sample values used by witnesses and counterexamples -/

/-- 32 zero bytes. -/
def zeros32 : Bytes := List.replicate 32 0

/-- A concrete Ed25519 keypair. -/
def sampleEd25519 : Ed25519Keypair := ⟨zeros32, zeros32⟩

/-- Its key data. -/
def sampleKeyData : KeypairData := .Ed25519 sampleEd25519

/-- Its public projection. -/
def samplePubData : PubKeyData := .Ed25519 zeros32

/-- A concrete unencrypted private key with a non-empty comment. -/
def samplePrivateKey : PrivateKey := ⟨none, .None, ⟨samplePubData, [97]⟩, sampleKeyData⟩

/-- A concrete already-encrypted private key. -/
def sampleEncryptedKey : PrivateKey :=
  ⟨some .Aes256Ctr, .Bcrypt (List.replicate 16 1) 16, ⟨samplePubData, []⟩,
    .Encrypted (List.replicate 16 0)⟩

/-- A crypto provider whose cipher is the identity (its decrypt is a
left inverse of its encrypt, as the contract requires). -/
def idProvider : CryptoProvider :=
  ⟨fun _ _ buf => buf, fun _ _ buf => buf, fun _ _ _ n => List.replicate n 0⟩

/-- 16 concrete salt bytes (standing for the rng output). -/
def sampleSalt : Bytes := List.replicate 16 1

/-! ## Claims -/

/-- C6: for all `L ≥ 0` and `1 ≤ B ≤ 16`, `padding_len(L, B)` is
strictly less than `B`, `(L + padding_len(L, B)) mod B = 0`, and
`padding_len` computes `(B - L mod B) mod B`. -/
theorem padding_len_spec (L B : Nat) (h1 : 1 ≤ B) (h16 : B ≤ 16) :
    padding_len L B < B ∧ (L + padding_len L B) % B = 0 ∧
      padding_len L B = (B - L % B) % B := by
  have hB : 0 < B := h1
  refine ⟨padding_len_lt L B hB, padding_len_add_mod L B hB, ?_⟩
  unfold padding_len
  by_cases h : L % B = 0
  · simp [h]
  · rw [if_neg h]
    have hlt := Nat.mod_lt L hB
    rw [Nat.mod_eq_of_lt (show B - L % B < B by omega)]

theorem padding_len_spec_witness :
    padding_len 5 8 < 8 ∧ (5 + padding_len 5 8) % 8 = 0 ∧
      padding_len 5 8 = (8 - 5 % 8) % 8 :=
  padding_len_spec 5 8 (by decide) (by decide)

/-- C10: for every block size in `[1, 16]` the padding computation never
divides by zero, its result is at most 15, and the
`PADDING_BYTES[..padding_len]` slice stays inside the 15-byte
`PADDING_BYTES` array (the slice really has `padding_len` bytes). -/
theorem padding_len_safe (L B : Nat) (h1 : 1 ≤ B) (h16 : B ≤ 16) :
    B ≠ 0 ∧ padding_len L B ≤ 15 ∧ padding_len L B ≤ PADDING_BYTES.length ∧
      (PADDING_BYTES.take (padding_len L B)).length = padding_len L B := by
  have hB : 0 < B := h1
  have h15 := padding_len_le L B hB h16
  have hlen : PADDING_BYTES.length = 15 := rfl
  exact ⟨by omega, h15, by omega, PADDING_BYTES_take_length _ h15⟩

theorem padding_len_safe_witness :
    (16 : Nat) ≠ 0 ∧ padding_len 3 16 ≤ 15 ∧
      padding_len 3 16 ≤ PADDING_BYTES.length ∧
      (PADDING_BYTES.take (padding_len 3 16)).length = padding_len 3 16 :=
  padding_len_safe 3 16 (by decide) (by decide)

/-- C9: for every private key, the inner length prefix computed by
`private_key_len(DEFAULT_BLOCK_SIZE)` equals the exact number of bytes
the private region occupies in `encode_openssh`: the ciphertext length
when encrypted, and the `encode_with_comment` output length otherwise;
`encode_openssh` writes exactly that prefix followed by the region. -/
theorem private_key_len_correct (P : PrivateKey) :
    ∃ region n,
      (if P.is_encrypted then P.key_data.encode
       else P.key_data.encode_with_comment P.comment DEFAULT_BLOCK_SIZE) = .ok region ∧
      P.private_key_len DEFAULT_BLOCK_SIZE = .ok n ∧ region.length = n ∧
      P.encode_openssh = .ok (AUTH_MAGIC ++ encodeCipherOpt P.cipher ++
        P.kdf.encode ++ encodeU32 1 ++ encodeStr P.public_key.key_data.encode ++
        encodeU32 n ++ region) := by
  obtain ⟨body, hbody⟩ := KeypairData.encode_ok P.key_data
  have hlen := KeypairData.encode_length_keypair P.key_data body hbody
  by_cases he : P.is_encrypted
  · have hregion : (if P.is_encrypted then P.key_data.encode
        else P.key_data.encode_with_comment P.comment DEFAULT_BLOCK_SIZE) = .ok body := by
      rw [if_pos he]
      exact hbody
    have hpkl : P.private_key_len DEFAULT_BLOCK_SIZE = .ok body.length := by
      simp only [PrivateKey.private_key_len, if_pos he]
      exact hlen
    refine ⟨body, body.length, hregion, hpkl, rfl, ?_⟩
    simp only [PrivateKey.encode_openssh, bind, Except.bind, hpkl]
    rw [if_pos he, hbody]
    rfl
  · have hne : P.key_data.is_encrypted = false := by
      simpa [PrivateKey.is_encrypted] using he
    set L := body.length + 4 + P.comment.length with hL
    set pad := padding_len L DEFAULT_BLOCK_SIZE with hpad
    have hpad15 : pad ≤ 15 :=
      padding_len_le L DEFAULT_BLOCK_SIZE (by decide) (by decide)
    have hregion : (if P.is_encrypted then P.key_data.encode
        else P.key_data.encode_with_comment P.comment DEFAULT_BLOCK_SIZE) =
        .ok (body ++ encodeStr P.comment ++ PADDING_BYTES.take pad) := by
      rw [if_neg he]
      exact KeypairData.encode_with_comment_eq P.key_data P.comment
        DEFAULT_BLOCK_SIZE hne body hbody
    have hpkl : P.private_key_len DEFAULT_BLOCK_SIZE = .ok (L + pad) := by
      simp only [PrivateKey.private_key_len, if_neg he,
        KeypairData.encoded_len_with_comment, bind, Except.bind, hlen]
      rfl
    refine ⟨body ++ encodeStr P.comment ++ PADDING_BYTES.take pad, L + pad,
      hregion, hpkl, ?_, ?_⟩
    · simp [List.length_append, encodeStr_length,
        PADDING_BYTES_take_length pad hpad15, hL]
      omega
    · simp only [PrivateKey.encode_openssh, bind, Except.bind, hpkl]
      rw [if_neg he, KeypairData.encode_with_comment_eq P.key_data P.comment
        DEFAULT_BLOCK_SIZE hne body hbody]
      rfl

/-- C4: `KeypairData::decode` reads two u32 checkints and fails with
`Crypto` whenever they differ; when they agree it reads the algorithm
tag, dispatches to the per-algorithm decoder and returns the matching
arm; an ECDSA body whose curve disagrees with the outer tag fails with
`Algorithm`. -/
theorem keypair_data_decode_spec :
    (∀ (bs r1 r2 : Bytes) (c1 c2 : Nat),
      decodeU32 bs = .ok (c1, r1) → decodeU32 r1 = .ok (c2, r2) → c1 ≠ c2 →
        KeypairData.decode bs = .error .Crypto) ∧
    (∀ (kd : KeypairData) (buf rest : Bytes), kd.wf → kd.is_encrypted = false →
      kd.encode = .ok buf → KeypairData.decode (buf ++ rest) = .ok (kd, rest)) ∧
    (∀ (c : Nat) (curve : EcdsaCurve) (k : EcdsaKeypair) (rest : Bytes),
      c < 4294967296 → k.wf → k.curve ≠ curve →
        KeypairData.decode (encodeU32 c ++ encodeU32 c ++
          (Algorithm.Ecdsa curve).encode ++ k.encode ++ rest) = .error .Algorithm) := by
  refine ⟨?_, ?_, ?_⟩
  · intro bs r1 r2 c1 c2 h1 h2 hne
    simp only [KeypairData.decode, bind, Except.bind, h1]
    rw [h2]
    dsimp only
    rw [if_pos hne]
  · intro kd buf rest hwf hne henc
    exact KeypairData.decode_encode_keypair kd hwf hne buf rest henc
  · intro c curve k rest hc hwf hcc
    simp only [KeypairData.decode, List.append_assoc]
    rw [decodeU32_encodeU32 _ _ hc]
    simp only [bind, Except.bind]
    rw [decodeU32_encodeU32 _ _ hc]
    dsimp only
    rw [if_neg (fun h => h rfl)]
    rw [Algorithm.decode_encode_name (Algorithm.Ecdsa curve) (k.encode ++ rest)]
    dsimp only
    rw [EcdsaKeypair.decode_encode_ecdsa k hwf rest]
    dsimp only
    rw [if_neg hcc]

theorem keypair_data_decode_spec_witness :
    KeypairData.decode (encodeU32 0 ++ encodeU32 1) = .error .Crypto ∧
    KeypairData.decode (encodeU32 7 ++ encodeU32 7 ++
      (Algorithm.Ecdsa .nistP384).encode ++
      (EcdsaKeypair.mk .nistP256 [] []).encode ++ []) = .error .Algorithm :=
  ⟨keypair_data_decode_spec.1 (encodeU32 0 ++ encodeU32 1) (encodeU32 1) [] 0 1
      rfl rfl (by decide),
    keypair_data_decode_spec.2.2 7 .nistP384 ⟨.nistP256, [], []⟩ []
      (by decide) (by simp [EcdsaKeypair.wf]) (by decide)⟩

/-- C5: `decode_with_comment` fails with `Length` when the input is not
block-aligned, fails with `Length` when the trailing bytes after the
comment number at least `block_size`, and fails with `FormatEncoding`
when they are not exactly the first `padding_len` bytes of
`PADDING_BYTES`. -/
theorem decode_with_comment_errors :
    (∀ (bs : Bytes) (pk : PublicKey) (B : Nat), bs.length % B ≠ 0 →
      KeypairData.decode_with_comment bs pk B = .error .Length) ∧
    (∀ (kd : KeypairData) (body comment pad : Bytes) (pk : PublicKey) (B : Nat),
      kd.wf → kd.is_encrypted = false → kd.encode = .ok body →
      kd.toPublic = .ok pk.key_data → comment.length < 4294967296 →
      (body ++ encodeStr comment ++ pad).length % B = 0 →
      pad.length ≥ B →
      KeypairData.decode_with_comment (body ++ encodeStr comment ++ pad) pk B =
        .error .Length) ∧
    (∀ (kd : KeypairData) (body comment pad : Bytes) (pk : PublicKey) (B : Nat),
      kd.wf → kd.is_encrypted = false → kd.encode = .ok body →
      kd.toPublic = .ok pk.key_data → comment.length < 4294967296 →
      (body ++ encodeStr comment ++ pad).length % B = 0 →
      pad.length < B → PADDING_BYTES.take pad.length ≠ pad →
      KeypairData.decode_with_comment (body ++ encodeStr comment ++ pad) pk B =
        .error .FormatEncoding) := by
  refine ⟨?_, ?_, ?_⟩
  · intro bs pk B halign
    simp only [KeypairData.decode_with_comment]
    rw [if_pos halign]
  · intro kd body comment pad pk B hwf hne hbody hpub hc halign hge
    simp only [KeypairData.decode_with_comment]
    rw [if_neg (fun h => h halign)]
    rw [List.append_assoc body]
    rw [KeypairData.decode_encode_keypair kd hwf hne body _ hbody]
    simp only [bind, Except.bind, hpub]
    rw [if_neg (fun h => h rfl)]
    simp only [PublicKey.decodeComment]
    rw [decodeStr_encodeStr comment _ hc]
    simp only [bind, Except.bind, pure, Except.pure]
    rw [if_pos hge]
  · intro kd body comment pad pk B hwf hne hbody hpub hc halign hlt hmis
    simp only [KeypairData.decode_with_comment]
    rw [if_neg (fun h => h halign)]
    rw [List.append_assoc body]
    rw [KeypairData.decode_encode_keypair kd hwf hne body _ hbody]
    simp only [bind, Except.bind, hpub]
    rw [if_neg (fun h => h rfl)]
    simp only [PublicKey.decodeComment]
    rw [decodeStr_encodeStr comment _ hc]
    simp only [bind, Except.bind, pure, Except.pure]
    rw [if_neg (by omega)]
    have hlen0 : pad.length ≠ 0 := by
      intro h0
      rw [List.length_eq_zero.mp h0] at hmis
      exact hmis rfl
    rw [if_pos ⟨hlen0, by rw [List.take_length]; exact hmis⟩]

theorem decode_with_comment_errors_witness :
    KeypairData.decode_with_comment [0] ⟨samplePubData, []⟩ 8 = .error .Length := by
  have h := decode_with_comment_errors.1 [0] ⟨samplePubData, []⟩ 8 (by decide)
  exact h

/-- C7: `decode_with_comment` fails with `PublicKey` whenever the public
projection of the decoded key data differs from the supplied public
key's key data; on success the projection equals the supplied key
data. -/
theorem decode_with_comment_public_key :
    (∀ (bs r : Bytes) (pk : PublicKey) (B : Nat) (kd : KeypairData) (pd : PubKeyData),
      bs.length % B = 0 → KeypairData.decode bs = .ok (kd, r) →
      kd.toPublic = .ok pd → pd ≠ pk.key_data →
      KeypairData.decode_with_comment bs pk B = .error .PublicKey) ∧
    (∀ (bs : Bytes) (pk : PublicKey) (B : Nat) (kd : KeypairData) (pk2 : PublicKey),
      KeypairData.decode_with_comment bs pk B = .ok (kd, pk2) →
      kd.toPublic = .ok pk.key_data ∧ pk2.key_data = pk.key_data) := by
  constructor
  · intro bs r pk B kd pd halign hdec hpubp hne
    simp only [KeypairData.decode_with_comment]
    rw [if_neg (fun h => h halign)]
    simp only [bind, Except.bind, hdec]
    rw [hpubp]
    dsimp only
    rw [if_pos (fun h => hne h.symm)]
  · intro bs pk B kd pk2 h
    exact ⟨(KeypairData.decode_with_comment_ok bs pk B kd pk2 h).2.1,
      (KeypairData.decode_with_comment_ok bs pk B kd pk2 h).2.2⟩

/-- The plaintext blob of the sample key with an empty comment. -/
def c7Buf : Bytes := (sampleKeyData.encode_with_comment [] 8).toOption.getD []

set_option maxRecDepth 40000 in
theorem decode_with_comment_public_key_witness :
    KeypairData.decode_with_comment c7Buf ⟨.Ed25519 (List.replicate 32 1), []⟩ 8 =
      .error .PublicKey :=
  decode_with_comment_public_key.1 c7Buf [0, 0, 0, 0, 1, 2, 3, 4, 5]
    ⟨.Ed25519 (List.replicate 32 1), []⟩ 8 sampleKeyData samplePubData
    (by decide) (by decide) (by decide) (by decide)

/-- C8: `from_openssh` fails with `Length` on every input whose decoded
`nkeys` field is not 1. -/
theorem from_openssh_nkeys_ne_one (input r0 r1 r2 r3 : Bytes)
    (c : Option Cipher) (k : Kdf) (n : Nat)
    (h0 : decodeRaw AUTH_MAGIC.length input = .ok (AUTH_MAGIC, r0))
    (h1 : decodeCipherOpt r0 = .ok (c, r1))
    (h2 : Kdf.decode r1 = .ok (k, r2))
    (h3 : decodeU32 r2 = .ok (n, r3))
    (hn : n ≠ 1) :
    PrivateKey.from_openssh input = .error .Length := by
  simp only [PrivateKey.from_openssh, bind, Except.bind, h0]
  rw [if_neg (fun h => h rfl)]
  rw [h1]
  dsimp only
  rw [h2]
  dsimp only
  rw [h3]
  dsimp only
  rw [if_pos hn]

/-- An input whose `nkeys` field is 2. -/
def c8Input : Bytes :=
  AUTH_MAGIC ++ encodeStr nameNone ++ Kdf.None.encode ++ encodeU32 2

theorem from_openssh_nkeys_ne_one_witness :
    PrivateKey.from_openssh c8Input = .error .Length :=
  from_openssh_nkeys_ne_one c8Input
    (encodeStr nameNone ++ Kdf.None.encode ++ encodeU32 2)
    (Kdf.None.encode ++ encodeU32 2) (encodeU32 2) []
    none Kdf.None 2 (by decide) (by decide) (by decide) (by decide) (by decide)

/-- C1: for every unencrypted private key and password, encrypting and
then decrypting with the same password succeeds and returns a key equal
to the original (comment, cipher and kdf included) under the
constant-time equality, provided the cipher collaborator's decrypt is a
left inverse of its encrypt (the KDF is a pure function here, hence
deterministic). -/
theorem encrypt_decrypt_roundtrip (cp : CryptoProvider)
    (hcp : ∀ key iv buf, cp.decrypt key iv (cp.encrypt key iv buf) = buf)
    (P : PrivateKey) (salt password : Bytes)
    (hwf : P.key_data.wf)
    (hcomment : P.comment.length < 4294967296)
    (hcipher : P.cipher = none) (hkdf : P.kdf = Kdf.None)
    (hpub : P.key_data.toPublic = .ok P.public_key.key_data) :
    ∃ Q R, P.encrypt cp salt password = .ok Q ∧ Q.decrypt cp password = .ok R ∧
      R.ct_eq P = true ∧ R = P := by
  obtain ⟨c, kdf0, ⟨pkd, com⟩, kd⟩ := P
  simp only [PrivateKey.comment] at hcomment
  subst hcipher
  subst hkdf
  have hne : kd.is_encrypted = false :=
    KeypairData.toPublic_ok_not_encrypted kd pkd hpub
  obtain ⟨body, hbody⟩ := KeypairData.encode_ok kd
  have hewc := KeypairData.encode_with_comment_eq kd com
    (Cipher.blockSize Cipher.Aes256Ctr) hne body hbody
  set okm := cp.bcryptPbkdf password salt DEFAULT_KDF_ROUNDS
    (Cipher.keySize Cipher.Aes256Ctr + Cipher.ivSize Cipher.Aes256Ctr) with hokm
  set key := okm.take (Cipher.keySize Cipher.Aes256Ctr) with hkey
  set iv := okm.drop (Cipher.keySize Cipher.Aes256Ctr) with hiv
  set buf := body ++ encodeStr com ++
    PADDING_BYTES.take (padding_len (body.length + 4 + com.length)
      (Cipher.blockSize Cipher.Aes256Ctr)) with hbuf
  refine ⟨⟨some .Aes256Ctr, .Bcrypt salt DEFAULT_KDF_ROUNDS, ⟨pkd, []⟩,
    .Encrypted (cp.encrypt key iv buf)⟩, ⟨none, .None, ⟨pkd, com⟩, kd⟩,
    ?_, ?_, PrivateKey.ct_eq_refl_private_key _, rfl⟩
  · simp only [PrivateKey.encrypt, PrivateKey.is_encrypted, hne,
      Bool.false_eq_true, if_false, Kdf.deriveKeyAndIv, bind, Except.bind,
      PrivateKey.comment, hewc, PublicKey.fromKeyData, pure, Except.pure]
  · simp only [PrivateKey.decrypt, Kdf.deriveKeyAndIv, bind, Except.bind,
      pure, Except.pure]
    rw [hcp key iv buf]
    rw [KeypairData.decode_encode_with_comment kd hwf hne com hcomment
      ⟨pkd, []⟩ hpub (Cipher.blockSize Cipher.Aes256Ctr) (by decide) (by decide)
      buf hewc]

set_option maxRecDepth 40000 in
theorem encrypt_decrypt_roundtrip_witness :
    ∃ Q R, samplePrivateKey.encrypt idProvider sampleSalt [112] = .ok Q ∧
      Q.decrypt idProvider [112] = .ok R ∧
      R.ct_eq samplePrivateKey = true ∧ R = samplePrivateKey :=
  encrypt_decrypt_roundtrip idProvider (fun _ _ _ => rfl) samplePrivateKey
    sampleSalt [112] ⟨rfl, rfl⟩ (by decide) rfl rfl (by decide)

/-- C2 (amended): `encrypt` fails with `Encrypted` when the key is
already encrypted; otherwise it succeeds and returns a key whose cipher
is AES-256-CTR, whose KDF is bcrypt over the fresh salt, whose public
key has the same key data as the original's but an empty comment, and
whose key data is the `Encrypted` arm holding the ciphertext. The
original key is a value that is never mutated. -/
theorem encrypt_spec (cp : CryptoProvider) (P : PrivateKey) (salt password : Bytes) :
    (P.is_encrypted = true → P.encrypt cp salt password = .error .Encrypted) ∧
    (P.is_encrypted = false →
      ∃ key iv buf,
        (Kdf.Bcrypt salt DEFAULT_KDF_ROUNDS).deriveKeyAndIv cp
          Cipher.Aes256Ctr password = .ok (key, iv) ∧
        P.key_data.encode_with_comment P.comment
          (Cipher.blockSize Cipher.Aes256Ctr) = .ok buf ∧
        P.encrypt cp salt password = .ok
          ⟨some Cipher.Aes256Ctr, Kdf.Bcrypt salt DEFAULT_KDF_ROUNDS,
            ⟨P.public_key.key_data, []⟩, .Encrypted (cp.encrypt key iv buf)⟩) := by
  constructor
  · intro he
    simp only [PrivateKey.encrypt, he, if_true]
  · intro hisenc
    have hne : P.key_data.is_encrypted = false := hisenc
    obtain ⟨body, hbody⟩ := KeypairData.encode_ok P.key_data
    have hewc := KeypairData.encode_with_comment_eq P.key_data P.comment
      (Cipher.blockSize Cipher.Aes256Ctr) hne body hbody
    refine ⟨_, _, _, rfl, hewc, ?_⟩
    simp only [PrivateKey.encrypt, PrivateKey.is_encrypted, hne,
      Bool.false_eq_true, if_false, Kdf.deriveKeyAndIv, bind, Except.bind,
      hewc, PublicKey.fromKeyData, pure, Except.pure]

set_option maxRecDepth 40000 in
theorem encrypt_spec_witness :
    sampleEncryptedKey.encrypt idProvider sampleSalt [112] = .error .Encrypted ∧
    ∃ key iv buf,
      (Kdf.Bcrypt sampleSalt DEFAULT_KDF_ROUNDS).deriveKeyAndIv idProvider
        Cipher.Aes256Ctr [112] = .ok (key, iv) ∧
      samplePrivateKey.key_data.encode_with_comment samplePrivateKey.comment
        (Cipher.blockSize Cipher.Aes256Ctr) = .ok buf ∧
      samplePrivateKey.encrypt idProvider sampleSalt [112] = .ok
        ⟨some Cipher.Aes256Ctr, Kdf.Bcrypt sampleSalt DEFAULT_KDF_ROUNDS,
          ⟨samplePrivateKey.public_key.key_data, []⟩,
          .Encrypted (idProvider.encrypt key iv buf)⟩ :=
  ⟨(encrypt_spec idProvider sampleEncryptedKey sampleSalt [112]).1 rfl,
    (encrypt_spec idProvider samplePrivateKey sampleSalt [112]).2 rfl⟩

set_option maxRecDepth 40000 in
/-- C2, counterexample to the claim as stated: the sample key's comment
is `"a"`, but the key returned by `encrypt` carries an empty public-key
comment, so the public key (comment included) is not preserved. -/
theorem encrypt_comment_counterexample :
    samplePrivateKey.public_key.comment = [97] ∧
    (samplePrivateKey.encrypt idProvider sampleSalt [112]).toOption.map
      (fun Q => Q.public_key.comment) = some [] ∧
    ([] : Bytes) ≠ [97] := by decide

/-- The §3 invariant that every constructor establishes: the cipher is
present exactly when the key data is the `Encrypted` arm, and
`is_encrypted()` agrees with both. -/
def PrivateKey.invariantWeak (K : PrivateKey) : Prop :=
  K.cipher.isSome = K.key_data.is_encrypted ∧
  K.is_encrypted = K.cipher.isSome ∧ K.is_encrypted = K.key_data.is_encrypted

/-- The full §3 invariant, additionally tying the KDF to the cipher. -/
def PrivateKey.invariantFull (K : PrivateKey) : Prop :=
  K.invariantWeak ∧ ((K.kdf = Kdf.None) ↔ K.key_data.is_encrypted = false)

/-- C3 (amended): every constructor establishes `cipher is Some ⇔
key_data is Encrypted` with `is_encrypted()` agreeing with both;
`new`, `TryFrom`, `encrypt` and `decrypt` additionally establish
`kdf ≠ None ⇔ encrypted`, but `from_openssh` leaves the KDF
unconstrained. -/
theorem constructors_invariant :
    (∀ (input : Bytes) (K : PrivateKey), PrivateKey.from_openssh input = .ok K →
      K.invariantWeak) ∧
    (∀ (kd : KeypairData) (comment : Bytes) (K : PrivateKey),
      PrivateKey.new kd comment = .ok K → K.invariantFull) ∧
    (∀ (kd : KeypairData) (K : PrivateKey), PrivateKey.try_from kd = .ok K →
      K.invariantFull) ∧
    (∀ (cp : CryptoProvider) (P : PrivateKey) (salt password : Bytes)
      (K : PrivateKey), P.encrypt cp salt password = .ok K → K.invariantFull) ∧
    (∀ (cp : CryptoProvider) (P : PrivateKey) (password : Bytes)
      (K : PrivateKey), P.decrypt cp password = .ok K → K.invariantFull) := by
  have htry : ∀ (kd : KeypairData) (K : PrivateKey),
      PrivateKey.try_from kd = .ok K → K.invariantFull := by
    intro kd K h
    simp only [PrivateKey.try_from, bind, Except.bind] at h
    cases hp : kd.toPublic with
    | error e => rw [hp] at h; exact absurd h (by simp)
    | ok pd =>
      rw [hp] at h
      simp only [pure, Except.pure] at h
      injection h with h
      subst h
      have hne := KeypairData.toPublic_ok_not_encrypted kd pd hp
      exact ⟨⟨by simp [hne], by simp [PrivateKey.is_encrypted, hne], rfl⟩,
        by simp [hne]⟩
  refine ⟨?_, ?_, htry, ?_, ?_⟩
  · intro input K h
    have hce := PrivateKey.from_openssh_cipher_encrypted input K h
    exact ⟨hce, hce.symm, rfl⟩
  · intro kd comment K h
    simp only [PrivateKey.new, bind, Except.bind] at h
    by_cases he : kd.is_encrypted
    · rw [if_pos he] at h
      exact absurd h (by simp)
    rw [if_neg he] at h
    cases ht : PrivateKey.try_from kd with
    | error e => rw [ht] at h; exact absurd h (by simp)
    | ok K0 =>
      rw [ht] at h
      simp only [pure, Except.pure] at h
      injection h with h
      subst h
      have hinv := htry kd K0 ht
      exact ⟨⟨hinv.1.1, hinv.1.2.1, hinv.1.2.2⟩, hinv.2⟩
  · intro cp P salt password K h
    simp only [PrivateKey.encrypt, bind, Except.bind] at h
    by_cases he : P.is_encrypted
    · rw [if_pos he] at h
      exact absurd h (by simp)
    rw [if_neg he] at h
    simp only [Kdf.deriveKeyAndIv] at h
    cases hb : P.key_data.encode_with_comment P.comment
        (Cipher.blockSize Cipher.Aes256Ctr) with
    | error e => rw [hb] at h; exact absurd h (by simp)
    | ok buf =>
      rw [hb] at h
      simp only [pure, Except.pure] at h
      injection h with h
      subst h
      exact ⟨⟨rfl, rfl, rfl⟩, by simp [KeypairData.is_encrypted]⟩
  · intro cp P password K h
    simp only [PrivateKey.decrypt, bind, Except.bind] at h
    cases hc : P.cipher with
    | none => rw [hc] at h; exact absurd h (by simp)
    | some cipher =>
      rw [hc] at h
      simp only [pure, Except.pure] at h
      try dsimp only at h
      cases hk : P.kdf with
      | None =>
        rw [hk] at h
        simp only [Kdf.deriveKeyAndIv] at h
        exact absurd h (by simp)
      | Bcrypt salt rounds =>
        rw [hk] at h
        simp only [Kdf.deriveKeyAndIv] at h
        try dsimp only at h
        cases hkd : P.key_data with
        | Encrypted ct =>
          rw [hkd] at h
          simp only [pure, Except.pure] at h
          try dsimp only at h
          cases hdwc : KeypairData.decode_with_comment
              (cp.decrypt ((cp.bcryptPbkdf password salt rounds
                (cipher.keySize + cipher.ivSize)).take cipher.keySize)
                ((cp.bcryptPbkdf password salt rounds
                  (cipher.keySize + cipher.ivSize)).drop cipher.keySize) ct)
              P.public_key cipher.blockSize with
          | error e => rw [hdwc] at h; exact absurd h (by simp)
          | ok v =>
            obtain ⟨kd2, pk2⟩ := v
            rw [hdwc] at h
            simp only [pure, Except.pure] at h
            injection h with h
            subst h
            have hne := (KeypairData.decode_with_comment_ok _ _ _ _ _ hdwc).1
            exact ⟨⟨by simp [hne], by simp [PrivateKey.is_encrypted, hne], rfl⟩,
              by simp [hne]⟩
        | Dsa key => rw [hkd] at h; exact absurd h (by simp)
        | Ecdsa key => rw [hkd] at h; exact absurd h (by simp)
        | Ed25519 key => rw [hkd] at h; exact absurd h (by simp)
        | Rsa key => rw [hkd] at h; exact absurd h (by simp)

/-- The sample key's OpenSSH binary body. -/
def sampleInput : Bytes := (samplePrivateKey.encode_openssh).toOption.getD []

set_option maxRecDepth 40000 in
theorem constructors_invariant_witness :
    PrivateKey.invariantWeak samplePrivateKey ∧
      PrivateKey.invariantFull ⟨none, .None, ⟨samplePubData, []⟩, sampleKeyData⟩ :=
  ⟨constructors_invariant.1 sampleInput samplePrivateKey (by decide),
    constructors_invariant.2.2.1 sampleKeyData _ (by decide)⟩

/-- An inconsistent but parseable private key: no cipher, bcrypt KDF. -/
def c3Key : PrivateKey :=
  ⟨none, .Bcrypt (List.replicate 16 2) 16, ⟨samplePubData, []⟩, sampleKeyData⟩

/-- The OpenSSH binary body `encode_openssh` emits for it. -/
def c3Input : Bytes := (c3Key.encode_openssh).toOption.getD []

set_option maxRecDepth 40000 in
/-- C3, counterexample to the claim as stated: `from_openssh` happily
returns a key with `cipher = none` whose KDF is bcrypt, violating
`cipher is Some ⇔ kdf ≠ None` (the parser never cross-checks the two
header fields). -/
theorem constructors_invariant_counterexample :
    PrivateKey.from_openssh c3Input = .ok c3Key ∧
    c3Key.cipher = none ∧ c3Key.kdf ≠ Kdf.None := by decide

end SshKey
